import Mathlib

/-!
Verification of the L5 substitution ADT (src/src/L5/L5-substitution-adt.ts).

The substitution algebra operates over type expressions.  The type-expression
module (`TExp.ts`) is an external collaborator not present under `src/`, so its
data model is modelled from the spec: a closed tagged union of Atomic (named
primitive), Variable (named type variable, identity compared by name equality)
and Procedure (ordered parameter expressions plus one return expression).
The extra constructor `bad` stands for any runtime value that is none of the
three recognized variants: the source's dispatch chains end in fallthrough
branches (`applySub`'s final `te`, `checkNoOccurrence`'s "Bad type expression"
failure) that are only reachable by such values.
-/

namespace L5

/-- Modelled from the spec: the external type-expression data model of `TExp.ts`
(not under `src/`): Atomic, Variable (`tvar`) and Procedure variants; `bad`
represents a runtime value that is none of the three recognized variants. -/
inductive TExp : Type where
  | atomic (name : String)
  | tvar (var : String)
  | proc (paramTEs : List TExp) (returnTE : TExp)
  | bad (desc : String)

/-- Modelled from the spec: a type variable of `TExp.ts`, carrying its name
(field `var` in the source). A `TVar` embeds into `TExp` as `TExp.tvar`. -/
structure TVar : Type where
  var : String

/-- Modelled from the spec: `eqTVar` of `TExp.ts` — type-variable identity is
name equality. -/
def eqTVar (v1 v2 : TVar) : Bool := v1.var == v2.var

/-- The two error shapes of the module. The source reports errors as strings
built with the external formatter `unparseTExp` (not under `src/`); we model
the errors structurally, keeping exactly the data each message interpolates:
`circular v te` for "Occur check error - circular sub ${v} in ${te}" and
`badTypeExp e te` for "Bad type expression ${e} in ${te}". -/
inductive SubError : Type where
  | circular (tvar : String) (te : TExp)
  | badTypeExp (e : TExp) (te : TExp)

/-- The Substitution record: two parallel lists of variables and type
expressions (source `Sub` interface, `tag` field omitted as it is constant). -/
structure Sub : Type where
  vars : List TVar
  tes : List TExp

/-- Source `makeEmptySub`. -/
def makeEmptySub : Sub := ⟨[], []⟩

/-- Source `isEmptySub`: a `Sub` whose two lists are both empty. -/
def isEmptySub (sub : Sub) : Bool := sub.vars.isEmpty && sub.tes.isEmpty

mutual
/-- The inner `check` closure of source `checkNoOccurrence`: walks `e`,
failing on a variable named like `tvar` (error payload carries the top-level
expression `top`) and on a malformed value. -/
def check (tvar : TVar) (top : TExp) : TExp → Except SubError Unit
  | .tvar v => if v == tvar.var then .error (.circular tvar.var top) else .ok ()
  | .atomic _ => .ok ()
  | .proc ps r => (checkList tvar top ps).bind fun _ => check tvar top r
  | .bad d => .error (.badTypeExp (.bad d) top)

/-- The `mapResult(check, e.paramTEs)` step of source `checkNoOccurrence`:
first failure wins, left to right. -/
def checkList (tvar : TVar) (top : TExp) : List TExp → Except SubError Unit
  | [] => .ok ()
  | x :: xs => (check tvar top x).bind fun _ => checkList tvar top xs
end

/-- Source `checkNoOccurrence(tvar, te)`: fails iff binding `tvar` to `te`
would be circular (or `te` is malformed). -/
def checkNoOccurrence (tvar : TVar) (te : TExp) : Except SubError Unit :=
  check tvar te te

/-- Source `checkNoOccurrences(vars, tes)`: pairwise occurs-check, position by
position, first failure wins.  When `tes` is shorter than `vars` the source
reads `tes[0]` past the end, obtaining `undefined` — a value that is none of
the recognized variants, modelled as `TExp.bad "undefined"`. -/
def checkNoOccurrences : List TVar → List TExp → Except SubError Unit
  | [], _ => .ok ()
  | v :: vs, te :: tes => (checkNoOccurrence v te).bind fun _ => checkNoOccurrences vs tes
  | v :: _, [] => checkNoOccurrence v (.bad "undefined")

/-- Source `makeSub(vars, tes)`: validate with `checkNoOccurrences`, then
return the substitution holding the given sequences verbatim. -/
def makeSub (vars : List TVar) (tes : List TExp) : Except SubError Sub :=
  (checkNoOccurrences vars tes).bind fun _ => .ok ⟨vars, tes⟩

/-- The inner `lookup` closure of source `subGet`: linear scan over the two
parallel lists; first name match wins, otherwise `v` itself (as a type
expression).  When `vars` outruns `tes` the source reads past the end; under
the arity invariant this never happens, and the theorems below assume it. -/
def lookup (v : TVar) : List TVar → List TExp → TExp
  | [], _ => .tvar v.var
  | u :: us, t :: ts => if eqTVar u v then t else lookup v us ts
  | _ :: _, [] => .tvar v.var

/-- Source `subGet(sub, v)`: if `v` is in `sub.vars` return the corresponding
type expression, else `v` unchanged. -/
def subGet (sub : Sub) (v : TVar) : TExp :=
  lookup v sub.vars sub.tes

mutual
/-- Source `applySub(sub, te)`: identity on an empty substitution, homomorphic
over the expression tree otherwise, with the final fallthrough returning a
malformed value unchanged. -/
def applySub (sub : Sub) (te : TExp) : TExp :=
  if isEmptySub sub then te else
  match te with
  | .atomic a => .atomic a
  | .tvar v => subGet sub ⟨v⟩
  | .proc ps r => .proc (applySubList sub ps) (applySub sub r)
  | .bad d => .bad d

/-- The `map(curry(applySub)(sub), te.paramTEs)` step of source `applySub`. -/
def applySubList (sub : Sub) : List TExp → List TExp
  | [] => []
  | x :: xs => applySub sub x :: applySubList sub xs
end

/-- Source `extendSub(sub, v, te)`: occur-check the single pair through
`makeSub`, rewrite every existing right-hand side with the singleton
substitution, then rebuild (replacing in place when `v` is already bound,
prepending otherwise), re-validating through `makeSub`. -/
def extendSub (sub : Sub) (v : TVar) (te : TExp) : Except SubError Sub :=
  (makeSub [v] [te]).bind fun sub2 =>
    let updatedTEs := sub.tes.map (applySub sub2)
    if (sub.vars.map TVar.var).contains v.var
    then makeSub sub.vars updatedTEs
    else makeSub (v :: sub.vars) (te :: updatedTEs)

/-- Source `combine(sub, vars, tes)`: fold `extendSub` over the pairs, first
failure wins.  As in `checkNoOccurrences`, a too-short `tes` makes the source
read `undefined` past the end, modelled as `TExp.bad "undefined"`. -/
def combine (sub : Sub) : List TVar → List TExp → Except SubError Sub
  | [], _ => .ok sub
  | v :: vs, te :: tes => (extendSub sub v te).bind fun extSub => combine extSub vs tes
  | v :: vs, [] => (extendSub sub v (.bad "undefined")).bind fun extSub => combine extSub vs []

/-- Source `combineSub(sub1, sub2)`: identity shortcuts for an empty side,
otherwise fold `sub2`'s bindings into `sub1`. -/
def combineSub (sub1 sub2 : Sub) : Except SubError Sub :=
  if isEmptySub sub1 then .ok sub2
  else if isEmptySub sub2 then .ok sub1
  else combine sub1 sub2.vars sub2.tes

/-! ## Specification-side notions

`occursIn` and `wellFormed` are the spec's vocabulary ("v occurs free in e",
"well-formed type expression"), used to state the claims; they are not part of
the source module. -/

mutual
/-- `occursIn v te`: the type variable named `v` occurs (free — the language
has no binders) somewhere inside `te`. -/
def occursIn (v : String) : TExp → Bool
  | .tvar u => u == v
  | .atomic _ => false
  | .proc ps r => occursInList v ps || occursIn v r
  | .bad _ => false

/-- `occursIn` over a list of parameter expressions. -/
def occursInList (v : String) : List TExp → Bool
  | [] => false
  | x :: xs => occursIn v x || occursInList v xs
end

mutual
/-- A well-formed type expression: built only from the three recognized
variants (no `bad` value anywhere). -/
def wellFormed : TExp → Bool
  | .atomic _ => true
  | .tvar _ => true
  | .proc ps r => wellFormedList ps && wellFormed r
  | .bad _ => false

/-- `wellFormed` over a list of parameter expressions. -/
def wellFormedList : List TExp → Bool
  | [] => true
  | x :: xs => wellFormed x && wellFormedList xs
end

/-- The spec's Substitution invariants:
A (uniqueness) — no variable name appears twice in `vars`;
B (arity) — `vars` and `tes` have equal length;
D (progressive normalization) — no variable bound by the substitution occurs
in any right-hand side, the condition under which applying the substitution
once yields the same result as applying it to a fixed point.
D subsumes invariant C (acyclicity), which is its diagonal special case. -/
def SubInvariants (sub : Sub) : Prop :=
  (sub.vars.map TVar.var).Nodup ∧
  sub.vars.length = sub.tes.length ∧
  (∀ u ∈ sub.vars, ∀ t ∈ sub.tes, occursIn u.var t = false)

/-- All right-hand sides of a substitution are well-formed type expressions
(guaranteed for any substitution built by the validating constructors). -/
def wellFormedSub (sub : Sub) : Prop :=
  ∀ t ∈ sub.tes, wellFormed t = true

instance : DecidablePred SubInvariants := fun sub => by
  unfold SubInvariants; infer_instance

instance : DecidablePred wellFormedSub := fun sub => by
  unfold wellFormedSub; infer_instance

/-! ## Basic equations and induction principle -/

/-- Structural induction over `TExp`, with the induction hypothesis for a
procedure's parameter list given as a membership statement. -/
theorem TExp.nestedInd (P : TExp → Prop)
    (ha : ∀ n, P (TExp.atomic n)) (hv : ∀ v, P (TExp.tvar v)) (hb : ∀ d, P (TExp.bad d))
    (hp : ∀ ps r, (∀ p ∈ ps, P p) → P r → P (TExp.proc ps r)) : ∀ e, P e :=
  fun e =>
    @TExp.rec P (fun l => ∀ p ∈ l, P p)
      ha hv
      (fun ps r ihl ihr => hp ps r ihl ihr)
      hb
      (fun p hmem => absurd hmem (List.not_mem_nil p))
      (fun x xs ihx ihxs p hmem => by
        rcases List.mem_cons.mp hmem with h | h
        · exact h ▸ ihx
        · exact ihxs p h)
      e

theorem isEmptySub_iff (sub : Sub) :
    isEmptySub sub = true ↔ sub.vars = [] ∧ sub.tes = [] := by
  simp [isEmptySub, List.isEmpty_iff]

theorem eqTVar_iff (u v : TVar) : eqTVar u v = true ↔ u.var = v.var := by
  simp [eqTVar]

theorem applySubList_eq_map (sub : Sub) (l : List TExp) :
    applySubList sub l = l.map (applySub sub) := by
  induction l with
  | nil => rfl
  | cons x xs ih => rw [applySubList, ih, List.map_cons]

theorem applySub_empty (sub : Sub) (h : isEmptySub sub = true) (te : TExp) :
    applySub sub te = te := by
  rw [applySub.eq_def, if_pos h]

theorem applySub_atomic (sub : Sub) (a : String) :
    applySub sub (.atomic a) = .atomic a := by
  rw [applySub.eq_def]; split <;> rfl

theorem applySub_bad (sub : Sub) (d : String) :
    applySub sub (.bad d) = .bad d := by
  rw [applySub.eq_def]; split <;> rfl

theorem applySub_tvar (sub : Sub) (h : isEmptySub sub = false) (v : String) :
    applySub sub (.tvar v) = subGet sub ⟨v⟩ := by
  rw [applySub.eq_def, if_neg (by simp [h])]

theorem applySub_proc (sub : Sub) (h : isEmptySub sub = false) (ps : List TExp) (r : TExp) :
    applySub sub (.proc ps r) = .proc (ps.map (applySub sub)) (applySub sub r) := by
  rw [applySub.eq_def, if_neg (by simp [h])]
  show TExp.proc (applySubList sub ps) (applySub sub r) = _
  rw [applySubList_eq_map]

theorem occursInList_eq_any (v : String) (l : List TExp) :
    occursInList v l = l.any (occursIn v) := by
  induction l with
  | nil => rfl
  | cons x xs ih => rw [occursInList, ih, List.any_cons]

theorem wellFormedList_eq_all (l : List TExp) :
    wellFormedList l = l.all wellFormed := by
  induction l with
  | nil => rfl
  | cons x xs ih => rw [wellFormedList, ih, List.all_cons]

/-! ## Lookup lemmas -/

theorem lookup_not_mem (v : TVar) (vars : List TVar) (tes : List TExp)
    (h : ∀ u ∈ vars, u.var ≠ v.var) : lookup v vars tes = .tvar v.var := by
  induction vars generalizing tes with
  | nil => rw [lookup]
  | cons u us ih =>
    cases tes with
    | nil => rw [lookup]
    | cons t ts =>
      rw [lookup, if_neg]
      · exact ih ts fun w hw => h w (List.mem_cons_of_mem u hw)
      · simp only [eqTVar_iff]
        exact h u (List.mem_cons_self u us)

theorem subGet_not_mem (sub : Sub) (v : TVar)
    (h : ∀ u ∈ sub.vars, u.var ≠ v.var) : subGet sub v = .tvar v.var :=
  lookup_not_mem v sub.vars sub.tes h

theorem lookup_map_mem (f : TExp → TExp) (v : TVar) (vars : List TVar) (tes : List TExp)
    (hlen : vars.length = tes.length) (hmem : v.var ∈ vars.map TVar.var) :
    lookup v vars (tes.map f) = f (lookup v vars tes) := by
  induction vars generalizing tes with
  | nil => cases hmem
  | cons u us ih =>
    cases tes with
    | nil => cases hlen
    | cons t ts =>
      by_cases heq : eqTVar u v = true
      · rw [List.map_cons, lookup, if_pos heq, lookup, if_pos heq]
      · rw [List.map_cons, lookup, if_neg (by simp [heq]), lookup, if_neg (by simp [heq])]
        apply ih ts (by simpa using hlen)
        rw [List.map_cons] at hmem
        rcases List.mem_cons.mp hmem with h | h
        · exact absurd ((eqTVar_iff u v).mpr h.symm) (by simp [heq])
        · exact h

theorem lookup_mem_or (v : TVar) (vars : List TVar) (tes : List TExp) :
    lookup v vars tes = .tvar v.var ∨ lookup v vars tes ∈ tes := by
  induction vars generalizing tes with
  | nil => left; rw [lookup]
  | cons u us ih =>
    cases tes with
    | nil => left; rw [lookup]
    | cons t ts =>
      by_cases heq : eqTVar u v = true
      · right; rw [lookup, if_pos heq]; exact List.mem_cons_self t ts
      · rw [lookup, if_neg (by simp [heq])]
        rcases ih ts with h | h
        · left; exact h
        · right; exact List.mem_cons_of_mem t h

/-! ## `applySub` and `occursIn` interaction -/

theorem applySub_id_of_not_occurs (sub : Sub) :
    ∀ t, (∀ u ∈ sub.vars, occursIn u.var t = false) → applySub sub t = t := by
  apply TExp.nestedInd (fun t => (∀ u ∈ sub.vars, occursIn u.var t = false) → applySub sub t = t)
  · intro n _; exact applySub_atomic sub n
  · intro w h
    by_cases he : isEmptySub sub = true
    · exact applySub_empty sub he _
    · rw [applySub_tvar sub (by simpa using he) w]
      apply subGet_not_mem
      intro u hu
      have := h u hu
      rw [occursIn] at this
      have hne : w ≠ u.var := by simpa using this
      exact fun hc => hne hc.symm
  · intro d _; exact applySub_bad sub d
  · intro ps r ihl ihr h
    by_cases he : isEmptySub sub = true
    · exact applySub_empty sub he _
    · have hsplit : ∀ u ∈ sub.vars,
          occursInList u.var ps = false ∧ occursIn u.var r = false := by
        intro u hu
        have := h u hu
        rw [occursIn] at this
        exact by simpa using this
      rw [applySub_proc sub (by simpa using he) ps r]
      have hps : ps.map (applySub sub) = ps := by
        rw [show ps.map (applySub sub) = ps.map id from ?_, List.map_id]
        apply List.map_congr_left
        intro p hp
        apply ihl p hp
        intro u hu
        have := (hsplit u hu).1
        rw [occursInList_eq_any] at this
        exact by simpa using (List.any_eq_false.mp this p hp)
      rw [hps, ihr fun u hu => (hsplit u hu).2]

theorem occursIn_applySub (sub : Sub) :
    ∀ t, ∀ w, occursIn w (applySub sub t) = true →
      occursIn w t = true ∨ ∃ t' ∈ sub.tes, occursIn w t' = true := by
  apply TExp.nestedInd
    (fun t => ∀ w, occursIn w (applySub sub t) = true →
      occursIn w t = true ∨ ∃ t' ∈ sub.tes, occursIn w t' = true)
  · intro n w h; rw [applySub_atomic] at h; exact Or.inl h
  · intro u w h
    by_cases he : isEmptySub sub = true
    · rw [applySub_empty sub he] at h; exact Or.inl h
    · rw [applySub_tvar sub (by simpa using he) u] at h
      rcases lookup_mem_or ⟨u⟩ sub.vars sub.tes with hl | hl
      · left; rw [subGet, hl] at h; exact h
      · right; exact ⟨_, hl, h⟩
  · intro d w h; rw [applySub_bad] at h; exact Or.inl h
  · intro ps r ihl ihr w h
    by_cases he : isEmptySub sub = true
    · rw [applySub_empty sub he] at h; exact Or.inl h
    · rw [applySub_proc sub (by simpa using he) ps r, occursIn, occursInList_eq_any] at h
      rcases Bool.or_eq_true_iff.mp h with hany | hr
      · rcases List.any_eq_true.mp hany with ⟨q, hq, hocc⟩
        rcases List.mem_map.mp hq with ⟨p, hp, rfl⟩
        rcases ihl p hp w hocc with hin | hin
        · left
          rw [occursIn, occursInList_eq_any]
          exact Bool.or_eq_true_iff.mpr (Or.inl (List.any_eq_true.mpr ⟨p, hp, hin⟩))
        · right; exact hin
      · rcases ihr w hr with hin | hin
        · left
          rw [occursIn]
          exact Bool.or_eq_true_iff.mpr (Or.inr hin)
        · right; exact hin

theorem occursIn_applySub_singleton_self (v : TVar) (e : TExp)
    (he : occursIn v.var e = false) :
    ∀ t, occursIn v.var (applySub ⟨[v], [e]⟩ t) = false := by
  apply TExp.nestedInd (fun t => occursIn v.var (applySub ⟨[v], [e]⟩ t) = false)
  · intro n; rw [applySub_atomic, occursIn]
  · intro w
    rw [applySub_tvar ⟨[v], [e]⟩ rfl w]
    show occursIn v.var (lookup ⟨w⟩ [v] [e]) = false
    rw [lookup]
    by_cases heq : eqTVar v ⟨w⟩ = true
    · rw [if_pos heq]; exact he
    · rw [if_neg heq, lookup, occursIn]
      simp only [eqTVar_iff] at heq
      simpa using fun hc => heq hc.symm
  · intro d; rw [applySub_bad, occursIn]
  · intro ps r ihl ihr
    rw [applySub_proc ⟨[v], [e]⟩ rfl ps r, occursIn, occursInList_eq_any]
    rw [Bool.or_eq_false_iff]
    constructor
    · apply List.any_eq_false.mpr
      intro q hq
      rcases List.mem_map.mp hq with ⟨p, hp, rfl⟩
      simp [ihl p hp]
    · exact ihr

theorem wellFormed_applySub (sub : Sub) (hsub : ∀ t' ∈ sub.tes, wellFormed t' = true) :
    ∀ t, wellFormed t = true → wellFormed (applySub sub t) = true := by
  apply TExp.nestedInd (fun t => wellFormed t = true → wellFormed (applySub sub t) = true)
  · intro n _; rw [applySub_atomic]; rfl
  · intro w _
    by_cases he : isEmptySub sub = true
    · rw [applySub_empty sub he]; rfl
    · rw [applySub_tvar sub (by simpa using he) w]
      rcases lookup_mem_or ⟨w⟩ sub.vars sub.tes with hl | hl
      · rw [subGet, hl]; rfl
      · exact hsub _ hl
  · intro d hd; cases hd
  · intro ps r ihl ihr h
    by_cases he : isEmptySub sub = true
    · rw [applySub_empty sub he]; exact h
    · rw [wellFormed, wellFormedList_eq_all] at h
      rcases Bool.and_eq_true_iff.mp h with ⟨hps, hr⟩
      rw [applySub_proc sub (by simpa using he) ps r, wellFormed, wellFormedList_eq_all]
      rw [Bool.and_eq_true_iff]
      constructor
      · apply List.all_eq_true.mpr
        intro q hq
        rcases List.mem_map.mp hq with ⟨p, hp, rfl⟩
        exact ihl p hp (List.all_eq_true.mp hps p hp)
      · exact ihr hr

/-! ## Characterizing the occurs-check on well-formed expressions -/

theorem checkList_eq (tv : TVar) (top : TExp) (ps : List TExp)
    (hps : ∀ p ∈ ps, wellFormed p = true →
      check tv top p =
        if occursIn tv.var p = true then .error (.circular tv.var top) else .ok ())
    (hwf : wellFormedList ps = true) :
    checkList tv top ps =
      if occursInList tv.var ps = true then .error (.circular tv.var top) else .ok () := by
  induction ps with
  | nil => rw [checkList, occursInList]; rfl
  | cons x xs ih =>
    rw [wellFormedList, Bool.and_eq_true_iff] at hwf
    rw [checkList, hps x (List.mem_cons_self x xs) hwf.1, occursInList]
    by_cases hx : occursIn tv.var x = true
    · simp [hx, Except.bind]
    · have hx' : occursIn tv.var x = false := by simpa using hx
      simp [hx', Except.bind, ih (fun p hp => hps p (List.mem_cons_of_mem x hp)) hwf.2]

theorem check_eq (tv : TVar) (top : TExp) :
    ∀ t, wellFormed t = true →
      check tv top t =
        if occursIn tv.var t = true then .error (.circular tv.var top) else .ok () := by
  apply TExp.nestedInd (fun t => wellFormed t = true →
    check tv top t =
      if occursIn tv.var t = true then .error (.circular tv.var top) else .ok ())
  · intro n _; rw [check, occursIn]; rfl
  · intro w _
    rw [check, occursIn]
  · intro d hd; cases hd
  · intro ps r ihl ihr h
    rw [wellFormed, Bool.and_eq_true_iff] at h
    rw [check, checkList_eq tv top ps ihl h.1, occursIn]
    by_cases hps : occursInList tv.var ps = true
    · simp [hps, Except.bind]
    · have hps' : occursInList tv.var ps = false := by simpa using hps
      simp [hps', Except.bind, ihr h.2]

theorem checkNoOccurrence_eq (tv : TVar) (te : TExp) (h : wellFormed te = true) :
    checkNoOccurrence tv te =
      if occursIn tv.var te = true then .error (.circular tv.var te) else .ok () :=
  check_eq tv te te h

/-! ## `makeSub` and `checkNoOccurrences` -/

theorem except_bind_ok {α β : Type} (x : Except SubError α) (f : α → Except SubError β)
    (b : β) (h : x.bind f = .ok b) : ∃ a, x = .ok a ∧ f a = .ok b := by
  cases x with
  | error e => cases h
  | ok a => exact ⟨a, rfl, h⟩

theorem makeSub_ok_inv (vars : List TVar) (tes : List TExp) (s : Sub)
    (h : makeSub vars tes = .ok s) :
    s = ⟨vars, tes⟩ ∧ checkNoOccurrences vars tes = .ok () := by
  rcases except_bind_ok _ _ _ h with ⟨u, hu, hf⟩
  cases u
  refine ⟨?_, hu⟩
  cases hf
  rfl

theorem makeSub_eq_ok (vars : List TVar) (tes : List TExp)
    (h : checkNoOccurrences vars tes = .ok ()) : makeSub vars tes = .ok ⟨vars, tes⟩ := by
  rw [makeSub, h]
  rfl

theorem makeSub_error_iff (vars : List TVar) (tes : List TExp) (err : SubError) :
    makeSub vars tes = .error err ↔ checkNoOccurrences vars tes = .error err := by
  rw [makeSub]
  cases hc : checkNoOccurrences vars tes with
  | error e => simp [Except.bind]
  | ok u => constructor <;> (intro h; cases h)

theorem checkNoOccurrences_ok_iff (vars : List TVar) :
    ∀ tes : List TExp, vars.length = tes.length →
      (∀ p ∈ vars.zip tes, wellFormed p.2 = true) →
      (checkNoOccurrences vars tes = .ok () ↔
        ∀ p ∈ vars.zip tes, occursIn p.1.var p.2 = false) := by
  induction vars with
  | nil => intro tes _ _; simp [checkNoOccurrences]
  | cons v vs ih =>
    intro tes hlen hwf
    cases tes with
    | nil => cases hlen
    | cons t ts =>
      have hwt : wellFormed t = true := hwf (v, t) (List.mem_cons_self _ _)
      rw [checkNoOccurrences, checkNoOccurrence_eq v t hwt]
      by_cases ho : occursIn v.var t = true
      · rw [if_pos ho]
        constructor
        · intro h; cases h
        · intro h
          exact absurd (h (v, t) (List.mem_cons_self _ _)) (by simp [ho])
      · have ho' : occursIn v.var t = false := by simpa using ho
        rw [if_neg ho]
        show checkNoOccurrences vs ts = .ok () ↔ _
        rw [ih ts (by simpa using hlen) fun p hp => hwf p (List.mem_cons_of_mem _ hp)]
        constructor
        · intro h p hp
          rcases List.mem_cons.mp hp with rfl | hp'
          · exact ho'
          · exact h p hp'
        · intro h p hp
          exact h p (List.mem_cons_of_mem _ hp)

theorem checkNoOccurrences_ok_or_circular (vars : List TVar) :
    ∀ tes : List TExp, vars.length = tes.length →
      (∀ p ∈ vars.zip tes, wellFormed p.2 = true) →
      checkNoOccurrences vars tes = .ok () ∨
        ∃ w t, checkNoOccurrences vars tes = .error (.circular w t) := by
  induction vars with
  | nil => intro tes _ _; left; rw [checkNoOccurrences]
  | cons v vs ih =>
    intro tes hlen hwf
    cases tes with
    | nil => cases hlen
    | cons t ts =>
      have hwt : wellFormed t = true := hwf (v, t) (List.mem_cons_self _ _)
      rw [checkNoOccurrences, checkNoOccurrence_eq v t hwt]
      by_cases ho : occursIn v.var t = true
      · right
        exact ⟨v.var, t, by rw [if_pos ho]; rfl⟩
      · rw [if_neg ho]
        show checkNoOccurrences vs ts = .ok () ∨ _
        exact ih ts (by simpa using hlen) fun p hp => hwf p (List.mem_cons_of_mem _ hp)

theorem checkNoOccurrences_first_fail (v : TVar) (t : TExp) (vb : List TVar)
    (tb : List TExp) (hocc : occursIn v.var t = true) (hwt : wellFormed t = true) :
    ∀ va : List TVar, ∀ ta : List TExp, va.length = ta.length →
      (∀ p ∈ va.zip ta, wellFormed p.2 = true) →
      (∀ p ∈ va.zip ta, occursIn p.1.var p.2 = false) →
      checkNoOccurrences (va ++ v :: vb) (ta ++ t :: tb) = .error (.circular v.var t) := by
  intro va
  induction va with
  | nil =>
    intro ta hlen _ _
    cases ta with
    | nil =>
      rw [List.nil_append, List.nil_append, checkNoOccurrences,
        checkNoOccurrence_eq v t hwt, if_pos hocc]
      rfl
    | cons t' ts' => cases hlen
  | cons u us ih =>
    intro ta hlen hwf hpass
    cases ta with
    | nil => cases hlen
    | cons t' ts' =>
      have hwt' : wellFormed t' = true := hwf (u, t') (List.mem_cons_self _ _)
      have hp' : occursIn u.var t' = false := hpass (u, t') (List.mem_cons_self _ _)
      rw [List.cons_append, List.cons_append, checkNoOccurrences,
        checkNoOccurrence_eq u t' hwt', if_neg (by simp [hp'])]
      show checkNoOccurrences (us ++ v :: vb) (ts' ++ t :: tb) = _
      exact ih ts' (by simpa using hlen)
        (fun p hp => hwf p (List.mem_cons_of_mem _ hp))
        (fun p hp => hpass p (List.mem_cons_of_mem _ hp))

/-! ## The shape of a successful `extendSub` -/

theorem extendSub_ok_shape (sub : Sub) (v : TVar) (te : TExp) (s' : Sub)
    (h : extendSub sub v te = .ok s') :
    checkNoOccurrences [v] [te] = .ok () ∧
      (((sub.vars.map TVar.var).contains v.var = true ∧
          s' = ⟨sub.vars, sub.tes.map (applySub ⟨[v], [te]⟩)⟩) ∨
        ((sub.vars.map TVar.var).contains v.var = false ∧
          s' = ⟨v :: sub.vars, te :: sub.tes.map (applySub ⟨[v], [te]⟩)⟩)) := by
  rw [extendSub] at h
  rcases except_bind_ok _ _ _ h with ⟨s2, hs2, hf⟩
  rcases makeSub_ok_inv _ _ _ hs2 with ⟨rfl, hcno⟩
  refine ⟨hcno, ?_⟩
  have hf' :
      (if (sub.vars.map TVar.var).contains v.var = true
        then makeSub sub.vars (sub.tes.map (applySub ⟨[v], [te]⟩))
        else makeSub (v :: sub.vars) (te :: sub.tes.map (applySub ⟨[v], [te]⟩)))
        = .ok s' := hf
  by_cases hmem : (sub.vars.map TVar.var).contains v.var = true
  · rw [if_pos hmem] at hf'
    exact Or.inl ⟨hmem, ((makeSub_ok_inv _ _ _ hf').1)⟩
  · rw [if_neg hmem] at hf'
    exact Or.inr ⟨by simpa using hmem, ((makeSub_ok_inv _ _ _ hf').1)⟩

theorem isEmptySub_false_of_vars_cons (u : TVar) (us : List TVar) (tes : List TExp) :
    isEmptySub ⟨u :: us, tes⟩ = false := rfl

/-- Key lemma, bound-variable case: when `v` is already bound in `sub`,
rewriting every right-hand side with the singleton `{v ↦ te}` produces a
substitution whose application agrees with applying `sub` first and the
singleton second. -/
theorem applySub_extend_mem (sub : Sub) (v : TVar) (te : TExp)
    (hB : sub.vars.length = sub.tes.length)
    (hmem : v.var ∈ sub.vars.map TVar.var) :
    ∀ x, applySub ⟨sub.vars, sub.tes.map (applySub ⟨[v], [te]⟩)⟩ x
        = applySub ⟨[v], [te]⟩ (applySub sub x) := by
  obtain ⟨u, us, hvars⟩ : ∃ u us, sub.vars = u :: us := by
    cases hv : sub.vars with
    | nil => rw [hv] at hmem; cases hmem
    | cons u us => exact ⟨u, us, rfl⟩
  have hse : isEmptySub sub = false := by
    rcases sub with ⟨vars, tes⟩
    cases hvars
    rfl
  have hse' : isEmptySub ⟨sub.vars, sub.tes.map (applySub ⟨[v], [te]⟩)⟩ = false := by
    rw [hvars]
    exact isEmptySub_false_of_vars_cons u us _
  apply TExp.nestedInd (fun x =>
    applySub ⟨sub.vars, sub.tes.map (applySub ⟨[v], [te]⟩)⟩ x
      = applySub ⟨[v], [te]⟩ (applySub sub x))
  · intro n
    rw [applySub_atomic, applySub_atomic, applySub_atomic]
  · intro w
    rw [applySub_tvar _ hse' w, applySub_tvar sub hse w]
    by_cases hw : w ∈ sub.vars.map TVar.var
    · exact lookup_map_mem (applySub ⟨[v], [te]⟩) ⟨w⟩ sub.vars sub.tes hB hw
    · have hnone : ∀ x ∈ sub.vars, x.var ≠ (⟨w⟩ : TVar).var := by
        intro x hx hc
        exact hw (List.mem_map.mpr ⟨x, hx, hc⟩)
      rw [subGet, lookup_not_mem _ _ _ hnone, subGet, lookup_not_mem _ _ _ hnone]
      rw [applySub_tvar ⟨[v], [te]⟩ rfl w]
      have hvw : v.var ≠ w := by
        intro hc
        exact hw (hc ▸ hmem)
      show _ = lookup ⟨w⟩ [v] [te]
      rw [lookup, if_neg (by simpa [eqTVar_iff] using hvw), lookup]
  · intro d
    rw [applySub_bad, applySub_bad, applySub_bad]
  · intro ps r ihl ihr
    rw [applySub_proc _ hse' ps r, applySub_proc sub hse ps r,
      applySub_proc ⟨[v], [te]⟩ rfl, ihr, List.map_map]
    congr 1
    exact List.map_congr_left fun p hp => ihl p hp

/-- Key lemma, new-variable case: when `v` is not yet bound in `sub`,
prepending `(v, te)` and rewriting the old right-hand sides with the singleton
`{v ↦ te}` likewise agrees with sequential application. -/
theorem applySub_extend_notmem (sub : Sub) (v : TVar) (te : TExp)
    (hB : sub.vars.length = sub.tes.length)
    (hnot : v.var ∉ sub.vars.map TVar.var) :
    ∀ x, applySub ⟨v :: sub.vars, te :: sub.tes.map (applySub ⟨[v], [te]⟩)⟩ x
        = applySub ⟨[v], [te]⟩ (applySub sub x) := by
  by_cases hse : isEmptySub sub = true
  · rcases sub with ⟨vars, tes⟩
    rcases (isEmptySub_iff _).mp hse with ⟨hv, ht⟩
    cases hv
    cases ht
    intro x
    rw [applySub_empty ⟨[], []⟩ rfl x]
    rfl
  · have hse : isEmptySub sub = false := by simpa using hse
    have hse' :
        isEmptySub ⟨v :: sub.vars, te :: sub.tes.map (applySub ⟨[v], [te]⟩)⟩ = false :=
      isEmptySub_false_of_vars_cons v sub.vars _
    apply TExp.nestedInd (fun x =>
      applySub ⟨v :: sub.vars, te :: sub.tes.map (applySub ⟨[v], [te]⟩)⟩ x
        = applySub ⟨[v], [te]⟩ (applySub sub x))
    · intro n
      rw [applySub_atomic, applySub_atomic, applySub_atomic]
    · intro w
      rw [applySub_tvar _ hse' w, applySub_tvar sub hse w]
      by_cases hvw : v.var = w
      · show lookup ⟨w⟩ (v :: sub.vars) (te :: _) = _
        rw [lookup, if_pos (by simpa [eqTVar_iff] using hvw)]
        have hwnot : ∀ x ∈ sub.vars, x.var ≠ (⟨w⟩ : TVar).var := by
          intro x hx hc
          exact hnot (hvw ▸ List.mem_map.mpr ⟨x, hx, hc⟩)
        rw [subGet, lookup_not_mem _ _ _ hwnot, applySub_tvar ⟨[v], [te]⟩ rfl w]
        show _ = lookup ⟨w⟩ [v] [te]
        rw [lookup, if_pos (by simpa [eqTVar_iff] using hvw)]
      · show lookup ⟨w⟩ (v :: sub.vars) (te :: _) = _
        rw [lookup, if_neg (by simpa [eqTVar_iff] using hvw)]
        by_cases hw : w ∈ sub.vars.map TVar.var
        · exact lookup_map_mem (applySub ⟨[v], [te]⟩) ⟨w⟩ sub.vars sub.tes hB hw
        · have hnone : ∀ x ∈ sub.vars, x.var ≠ (⟨w⟩ : TVar).var := by
            intro x hx hc
            exact hw (List.mem_map.mpr ⟨x, hx, hc⟩)
          rw [lookup_not_mem _ _ _ hnone, subGet, lookup_not_mem _ _ _ hnone]
          rw [applySub_tvar ⟨[v], [te]⟩ rfl w]
          show _ = lookup ⟨w⟩ [v] [te]
          rw [lookup, if_neg (by simpa [eqTVar_iff] using hvw), lookup]
    · intro d
      rw [applySub_bad, applySub_bad, applySub_bad]
    · intro ps r ihl ihr
      rw [applySub_proc _ hse' ps r, applySub_proc sub hse ps r,
        applySub_proc ⟨[v], [te]⟩ rfl, ihr, List.map_map]
      congr 1
      exact List.map_congr_left fun p hp => ihl p hp

/-- Key lemma: a successful `extendSub sub v te` preserves the arity invariant
and applies like `sub` followed by the singleton `{v ↦ te}`. -/
theorem extendSub_apply (sub : Sub) (v : TVar) (te : TExp) (s' : Sub)
    (hB : sub.vars.length = sub.tes.length) (h : extendSub sub v te = .ok s') :
    s'.vars.length = s'.tes.length ∧
      ∀ x, applySub s' x = applySub ⟨[v], [te]⟩ (applySub sub x) := by
  rcases extendSub_ok_shape sub v te s' h with ⟨_, hcase⟩
  rcases hcase with ⟨hmem, rfl⟩ | ⟨hnot, rfl⟩
  · exact ⟨by simpa using hB,
      applySub_extend_mem sub v te hB (by simpa using hmem)⟩
  · exact ⟨by simpa using hB,
      applySub_extend_notmem sub v te hB (by simpa using hnot)⟩

/-! ## Composition: folding `extendSub` versus applying sequentially -/

/-- Sequential application of the singleton substitutions `{vars[i] ↦ tes[i]}`
left to right: the reference semantics of the fold performed by `combine`. -/
def chainApply : List TVar → List TExp → TExp → TExp
  | [], _, x => x
  | _ :: _, [], x => x
  | v :: vs, te :: tes, x => chainApply vs tes (applySub ⟨[v], [te]⟩ x)

theorem combine_ok_apply (vars : List TVar) :
    ∀ tes : List TExp, ∀ sub r : Sub, vars.length = tes.length →
      sub.vars.length = sub.tes.length →
      combine sub vars tes = .ok r →
      r.vars.length = r.tes.length ∧
        ∀ x, applySub r x = chainApply vars tes (applySub sub x) := by
  induction vars with
  | nil =>
    intro tes sub r _ hB h
    rw [combine] at h
    cases h
    exact ⟨hB, fun x => by rw [chainApply]⟩
  | cons v vs ih =>
    intro tes sub r hlen hB h
    cases tes with
    | nil => cases hlen
    | cons t ts =>
      rw [combine] at h
      rcases except_bind_ok _ _ _ h with ⟨s1, hs1, hrest⟩
      rcases extendSub_apply sub v t s1 hB hs1 with ⟨hB1, happ⟩
      rcases ih ts s1 r (by simpa using hlen) hB1 hrest with ⟨hBr, ihapp⟩
      refine ⟨hBr, fun x => ?_⟩
      rw [chainApply, ihapp x, happ x]

/-- Merging a head binding into sequential application: under the
normalization condition for the head's right-hand side, applying the singleton
`{v ↦ t}` and then the tail substitution agrees with applying the whole. -/
theorem applySub_cons_merge (v : TVar) (t : TExp) (vs : List TVar) (ts : List TExp)
    (hB : vs.length = ts.length)
    (hD : ∀ u ∈ vs, occursIn u.var t = false) :
    ∀ y, applySub ⟨vs, ts⟩ (applySub ⟨[v], [t]⟩ y) = applySub ⟨v :: vs, t :: ts⟩ y := by
  by_cases hse : isEmptySub (⟨vs, ts⟩ : Sub) = true
  · rcases (isEmptySub_iff _).mp hse with ⟨hv, ht⟩
    cases hv
    cases ht
    intro y
    rw [applySub_empty ⟨[], []⟩ rfl]
  · have hse : isEmptySub (⟨vs, ts⟩ : Sub) = false := by simpa using hse
    have hcons : isEmptySub (⟨v :: vs, t :: ts⟩ : Sub) = false :=
      isEmptySub_false_of_vars_cons v vs _
    apply TExp.nestedInd (fun y =>
      applySub ⟨vs, ts⟩ (applySub ⟨[v], [t]⟩ y) = applySub ⟨v :: vs, t :: ts⟩ y)
    · intro n
      rw [applySub_atomic, applySub_atomic, applySub_atomic]
    · intro w
      rw [applySub_tvar ⟨[v], [t]⟩ rfl w, applySub_tvar _ hcons w]
      by_cases hvw : v.var = w
      · show applySub ⟨vs, ts⟩ (lookup ⟨w⟩ [v] [t]) = lookup ⟨w⟩ (v :: vs) (t :: ts)
        rw [lookup, if_pos (by simpa [eqTVar_iff] using hvw),
          lookup, if_pos (by simpa [eqTVar_iff] using hvw)]
        exact applySub_id_of_not_occurs ⟨vs, ts⟩ t hD
      · show applySub ⟨vs, ts⟩ (lookup ⟨w⟩ [v] [t]) = lookup ⟨w⟩ (v :: vs) (t :: ts)
        rw [lookup, if_neg (by simpa [eqTVar_iff] using hvw), lookup,
          lookup, if_neg (by simpa [eqTVar_iff] using hvw)]
        rw [applySub_tvar _ hse w]
        rfl
    · intro d
      rw [applySub_bad, applySub_bad, applySub_bad]
    · intro ps r ihl ihr
      rw [applySub_proc ⟨[v], [t]⟩ rfl ps r, applySub_proc _ hse, applySub_proc _ hcons,
        ihr, List.map_map]
      congr 1
      exact List.map_congr_left fun p hp => ihl p hp

theorem chainApply_eq_applySub (vars : List TVar) :
    ∀ tes : List TExp, vars.length = tes.length →
      (∀ u ∈ vars, ∀ t ∈ tes, occursIn u.var t = false) →
      ∀ y, chainApply vars tes y = applySub ⟨vars, tes⟩ y := by
  induction vars with
  | nil =>
    intro tes hlen _ y
    cases tes with
    | nil => rw [chainApply, applySub_empty ⟨[], []⟩ rfl]
    | cons t ts => cases hlen
  | cons v vs ih =>
    intro tes hlen hD y
    cases tes with
    | nil => cases hlen
    | cons t ts =>
      rw [chainApply,
        ih ts (by simpa using hlen)
          (fun u hu t' ht' => hD u (List.mem_cons_of_mem _ hu) t' (List.mem_cons_of_mem _ ht'))]
      exact applySub_cons_merge v t vs ts (by simpa using hlen)
        (fun u hu => hD u (List.mem_cons_of_mem _ hu) t (List.mem_cons_self _ _)) y

/-! ## Idempotence and further helpers -/

/-- A substitution none of whose bound variables occurs in any right-hand side
applies idempotently. -/
theorem applySub_idem_of_noOccurs (sub : Sub)
    (hD : ∀ u ∈ sub.vars, ∀ t ∈ sub.tes, occursIn u.var t = false) :
    ∀ x, applySub sub (applySub sub x) = applySub sub x := by
  by_cases hse : isEmptySub sub = true
  · intro x
    rw [applySub_empty sub hse, applySub_empty sub hse]
  · have hse : isEmptySub sub = false := by simpa using hse
    apply TExp.nestedInd (fun x => applySub sub (applySub sub x) = applySub sub x)
    · intro n
      rw [applySub_atomic, applySub_atomic]
    · intro w
      rw [applySub_tvar sub hse w]
      rcases lookup_mem_or ⟨w⟩ sub.vars sub.tes with hl | hl
      · rw [subGet, hl, applySub_tvar sub hse w, subGet, hl]
      · exact applySub_id_of_not_occurs sub _ fun u hu => hD u hu _ hl
    · intro d
      rw [applySub_bad, applySub_bad]
    · intro ps r ihl ihr
      rw [applySub_proc sub hse ps r, applySub_proc sub hse, ihr, List.map_map]
      congr 1
      exact List.map_congr_left fun p hp => ihl p hp

theorem makeSub_circular_iff (vars : List TVar) (tes : List TExp)
    (hlen : vars.length = tes.length)
    (hwf : ∀ p ∈ vars.zip tes, wellFormed p.2 = true) :
    (∃ w t, makeSub vars tes = .error (.circular w t)) ↔
      ∃ p ∈ vars.zip tes, occursIn p.1.var p.2 = true := by
  constructor
  · rintro ⟨w, t, herr⟩
    have hcno := (makeSub_error_iff vars tes _).mp herr
    by_contra hc
    push_neg at hc
    have hok := (checkNoOccurrences_ok_iff vars tes hlen hwf).mpr
      fun p hp => by simpa using hc p hp
    rw [hok] at hcno
    cases hcno
  · rintro ⟨p, hp, hocc⟩
    rcases checkNoOccurrences_ok_or_circular vars tes hlen hwf with hok | ⟨w, t, herr⟩
    · have := (checkNoOccurrences_ok_iff vars tes hlen hwf).mp hok p hp
      rw [hocc] at this
      cases this
    · exact ⟨w, t, (makeSub_error_iff vars tes _).mpr herr⟩

theorem lookup_first_match (v u : TVar) (t : TExp) (vb : List TVar) (tb : List TExp) :
    ∀ va : List TVar, ∀ ta : List TExp, va.length = ta.length →
      (∀ w ∈ va, w.var ≠ v.var) → u.var = v.var →
      lookup v (va ++ u :: vb) (ta ++ t :: tb) = t := by
  intro va
  induction va with
  | nil =>
    intro ta hlen _ hu
    cases ta with
    | nil =>
      rw [List.nil_append, List.nil_append, lookup,
        if_pos (by simpa [eqTVar_iff] using hu)]
    | cons t' ts' => cases hlen
  | cons w ws ih =>
    intro ta hlen hne hu
    cases ta with
    | nil => cases hlen
    | cons t' ts' =>
      rw [List.cons_append, List.cons_append, lookup,
        if_neg (by simpa [eqTVar_iff] using hne w (List.mem_cons_self _ _))]
      exact ih ts' (by simpa using hlen) (fun x hx => hne x (List.mem_cons_of_mem _ hx)) hu

/-! ## Fueled variants: explicit recursion-depth bounds (claim C9)

Each recursive worker gets a variant that consumes one unit of fuel per
recursive call and returns `none` when the fuel runs out.  Convergence at fuel
equal to the expression-tree depth (for the tree recursions) or the scanned
list length (for the list recursions) is the formal content of "all operations
terminate, with recursion depth equal to expression-tree depth". -/

mutual
/-- Tree depth of a type expression; leaves have depth 1. -/
def depth : TExp → Nat
  | .atomic _ => 1
  | .tvar _ => 1
  | .bad _ => 1
  | .proc ps r => 1 + Nat.max (depthList ps) (depth r)

/-- Maximum depth over a list of parameter expressions. -/
def depthList : List TExp → Nat
  | [] => 0
  | x :: xs => Nat.max (depth x) (depthList xs)
end

mutual
/-- `applySub` with explicit recursion fuel: one unit per tree level. -/
def applySubF : Nat → Sub → TExp → Option TExp
  | 0, _, _ => none
  | n + 1, sub, te =>
    if isEmptySub sub then some te else
    match te with
    | .atomic a => some (.atomic a)
    | .tvar v => some (subGet sub ⟨v⟩)
    | .proc ps r =>
      (applySubListF n sub ps).bind fun ps' =>
        (applySubF n sub r).map fun r' => .proc ps' r'
    | .bad d => some (.bad d)
termination_by n _ te => (n, sizeOf te)

/-- Fueled traversal of a parameter list (fuel measures tree depth). -/
def applySubListF : Nat → Sub → List TExp → Option (List TExp)
  | _, _, [] => some []
  | n, sub, x :: xs =>
    (applySubF n sub x).bind fun y =>
      (applySubListF n sub xs).map fun ys => y :: ys
termination_by n _ l => (n, sizeOf l)
end

mutual
/-- The occurs-check walker `check` with explicit recursion fuel. -/
def checkF : Nat → TVar → TExp → TExp → Option (Except SubError Unit)
  | 0, _, _, _ => none
  | n + 1, tvar, top, te =>
    match te with
    | .tvar v => some (if v == tvar.var then .error (.circular tvar.var top) else .ok ())
    | .atomic _ => some (.ok ())
    | .proc ps r =>
      (checkListF n tvar top ps).bind fun c =>
        (checkF n tvar top r).map fun c' => c.bind fun _ => c'
    | .bad d => some (.error (.badTypeExp (.bad d) top))
termination_by n _ _ te => (n, sizeOf te)

/-- Fueled traversal for the parameter-list occurs-check. -/
def checkListF : Nat → TVar → TExp → List TExp → Option (Except SubError Unit)
  | _, _, _, [] => some (.ok ())
  | n, tvar, top, x :: xs =>
    (checkF n tvar top x).bind fun c =>
      (checkListF n tvar top xs).map fun c' => c.bind fun _ => c'
termination_by n _ _ l => (n, sizeOf l)
end

/-- `lookup` with explicit fuel: one unit per scanned binding. -/
def lookupF (v : TVar) : Nat → List TVar → List TExp → Option TExp
  | _, [], _ => some (.tvar v.var)
  | _, _ :: _, [] => some (.tvar v.var)
  | 0, _ :: _, _ :: _ => none
  | n + 1, u :: us, t :: ts => if eqTVar u v then some t else lookupF v n us ts

/-- `checkNoOccurrences` with explicit fuel: one unit per binding pair. -/
def checkNoOccurrencesF : Nat → List TVar → List TExp → Option (Except SubError Unit)
  | _, [], _ => some (.ok ())
  | 0, _ :: _, _ => none
  | n + 1, v :: vs, te :: tes =>
    (checkNoOccurrencesF n vs tes).map fun c => (checkNoOccurrence v te).bind fun _ => c
  | _ + 1, v :: _, [] => some (checkNoOccurrence v (.bad "undefined"))

/-- `combine` with explicit fuel: one unit per folded binding. -/
def combineF : Nat → Sub → List TVar → List TExp → Option (Except SubError Sub)
  | _, sub, [], _ => some (.ok sub)
  | 0, _, _ :: _, _ => none
  | n + 1, sub, v :: vs, te :: tes =>
    match extendSub sub v te with
    | .error e => some (.error e)
    | .ok extSub => combineF n extSub vs tes
  | n + 1, sub, v :: vs, [] =>
    match extendSub sub v (.bad "undefined") with
    | .error e => some (.error e)
    | .ok extSub => combineF n extSub vs []

theorem applySubF_succ (n : Nat) (sub : Sub) (te : TExp) :
    applySubF (n + 1) sub te =
      if isEmptySub sub then some te else
      match te with
      | .atomic a => some (.atomic a)
      | .tvar v => some (subGet sub ⟨v⟩)
      | .proc ps r =>
        (applySubListF n sub ps).bind fun ps' =>
          (applySubF n sub r).map fun r' => .proc ps' r'
      | .bad d => some (.bad d) := by
  rw [applySubF.eq_def]

theorem checkF_succ (n : Nat) (tv : TVar) (top : TExp) (te : TExp) :
    checkF (n + 1) tv top te =
      match te with
      | .tvar v => some (if v == tv.var then .error (.circular tv.var top) else .ok ())
      | .atomic _ => some (.ok ())
      | .proc ps r =>
        (checkListF n tv top ps).bind fun c =>
          (checkF n tv top r).map fun c' => c.bind fun _ => c'
      | .bad d => some (.error (.badTypeExp (.bad d) top)) := by
  rw [checkF.eq_def]

theorem depth_pos (te : TExp) : 0 < depth te := by
  cases te <;> rw [depth] <;> omega

theorem applySubF_spec (n : Nat) :
    (∀ te : TExp, ∀ sub : Sub, depth te ≤ n → applySubF n sub te = some (applySub sub te)) ∧
    (∀ l : List TExp, ∀ sub : Sub, depthList l ≤ n →
      applySubListF n sub l = some (applySubList sub l)) := by
  induction n with
  | zero =>
    constructor
    · intro te sub hd
      exact absurd hd (by have := depth_pos te; omega)
    · intro l sub hd
      cases l with
      | nil => rw [applySubListF, applySubList]
      | cons x xs =>
        rw [depthList] at hd
        have hx : depth x ≤ 0 := le_trans (Nat.le_max_left _ _) hd
        exact absurd hx (by have := depth_pos x; omega)
  | succ n ihn =>
    have htree : ∀ te : TExp, ∀ sub : Sub, depth te ≤ n + 1 →
        applySubF (n + 1) sub te = some (applySub sub te) := by
      intro te sub hd
      by_cases hse : isEmptySub sub = true
      · rw [applySubF_succ, if_pos hse, applySub_empty sub hse]
      · have hse : isEmptySub sub = false := by simpa using hse
        cases te with
        | atomic a => rw [applySubF_succ, if_neg (by simp [hse]), applySub_atomic]
        | tvar w => rw [applySubF_succ, if_neg (by simp [hse]), applySub_tvar sub hse w]
        | bad d => rw [applySubF_succ, if_neg (by simp [hse]), applySub_bad]
        | proc ps r =>
          rw [depth] at hd
          have hmax := Nat.max_le.mp (show Nat.max (depthList ps) (depth r) ≤ n by omega)
          rw [applySubF_succ, if_neg (by simp [hse])]
          show ((applySubListF n sub ps).bind fun ps' =>
            (applySubF n sub r).map fun r' => TExp.proc ps' r') = _
          rw [ihn.2 ps sub hmax.1, ihn.1 r sub hmax.2]
          show some (TExp.proc (applySubList sub ps) (applySub sub r)) = _
          rw [applySub_proc sub hse ps r, applySubList_eq_map]
    refine ⟨htree, ?_⟩
    intro l sub hd
    induction l with
    | nil => rw [applySubListF, applySubList]
    | cons x xs ihxs =>
      rw [depthList] at hd
      have hx : depth x ≤ n + 1 := le_trans (Nat.le_max_left _ _) hd
      have hxs : depthList xs ≤ n + 1 := le_trans (Nat.le_max_right _ _) hd
      rw [applySubListF, htree x sub hx, ihxs hxs]
      rw [applySubList]
      rfl

theorem checkF_spec (n : Nat) :
    (∀ te : TExp, ∀ tv : TVar, ∀ top : TExp, depth te ≤ n →
      checkF n tv top te = some (check tv top te)) ∧
    (∀ l : List TExp, ∀ tv : TVar, ∀ top : TExp, depthList l ≤ n →
      checkListF n tv top l = some (checkList tv top l)) := by
  induction n with
  | zero =>
    constructor
    · intro te tv top hd
      exact absurd hd (by have := depth_pos te; omega)
    · intro l tv top hd
      cases l with
      | nil => rw [checkListF, checkList]
      | cons x xs =>
        rw [depthList] at hd
        have hx : depth x ≤ 0 := le_trans (Nat.le_max_left _ _) hd
        exact absurd hx (by have := depth_pos x; omega)
  | succ n ihn =>
    have htree : ∀ te : TExp, ∀ tv : TVar, ∀ top : TExp, depth te ≤ n + 1 →
        checkF (n + 1) tv top te = some (check tv top te) := by
      intro te tv top hd
      cases te with
      | atomic a => rw [checkF_succ, check]
      | tvar w => rw [checkF_succ, check]
      | bad d => rw [checkF_succ, check]
      | proc ps r =>
        rw [depth] at hd
        have hmax := Nat.max_le.mp (show Nat.max (depthList ps) (depth r) ≤ n by omega)
        rw [checkF_succ]
        show ((checkListF n tv top ps).bind fun c =>
          (checkF n tv top r).map fun c' => c.bind fun _ => c') = _
        rw [ihn.2 ps tv top hmax.1, ihn.1 r tv top hmax.2, check]
        rfl
    refine ⟨htree, ?_⟩
    intro l tv top hd
    induction l with
    | nil => rw [checkListF, checkList]
    | cons x xs ihxs =>
      rw [depthList] at hd
      have hx : depth x ≤ n + 1 := le_trans (Nat.le_max_left _ _) hd
      have hxs : depthList xs ≤ n + 1 := le_trans (Nat.le_max_right _ _) hd
      rw [checkListF, htree x tv top hx, ihxs hxs, checkList]
      rfl

theorem lookupF_spec (v : TVar) (vars : List TVar) :
    ∀ tes : List TExp, ∀ n : Nat, vars.length ≤ n →
      lookupF v n vars tes = some (lookup v vars tes) := by
  induction vars with
  | nil =>
    intro tes n _
    rw [lookupF, lookup]
  | cons u us ih =>
    intro tes n hn
    cases tes with
    | nil => rw [lookupF, lookup]
    | cons t ts =>
      cases n with
      | zero => cases hn
      | succ n =>
        rw [lookupF, lookup]
        by_cases heq : eqTVar u v = true
        · rw [if_pos heq, if_pos heq]
        · rw [if_neg heq, if_neg heq]
          exact ih ts n (by simpa using hn)

theorem checkNoOccurrencesF_spec (vars : List TVar) :
    ∀ tes : List TExp, ∀ n : Nat, vars.length ≤ n →
      checkNoOccurrencesF n vars tes = some (checkNoOccurrences vars tes) := by
  induction vars with
  | nil =>
    intro tes n _
    rw [checkNoOccurrencesF, checkNoOccurrences]
  | cons v vs ih =>
    intro tes n hn
    cases n with
    | zero => cases hn
    | succ n =>
      cases tes with
      | nil => rw [checkNoOccurrencesF, checkNoOccurrences]
      | cons t ts =>
        rw [checkNoOccurrencesF, ih ts n (by simpa using hn), checkNoOccurrences]
        rfl

theorem combineF_spec (vars : List TVar) :
    ∀ tes : List TExp, ∀ sub : Sub, ∀ n : Nat, vars.length ≤ n →
      combineF n sub vars tes = some (combine sub vars tes) := by
  induction vars with
  | nil =>
    intro tes sub n _
    rw [combineF, combine]
  | cons v vs ih =>
    intro tes sub n hn
    cases n with
    | zero => cases hn
    | succ n =>
      cases tes with
      | nil =>
        rw [combineF, combine]
        cases hx : extendSub sub v (.bad "undefined") with
        | error e => rfl
        | ok extSub => exact ih [] extSub n (by simpa using hn)
      | cons t ts =>
        rw [combineF, combine]
        cases hx : extendSub sub v t with
        | error e => rfl
        | ok extSub => exact ih ts extSub n (by simpa using hn)

/-! ## The claims -/

/-- **C1** (confirmed): for all substitutions `s1`, `s2` satisfying the
Substitution invariants and every well-formed type expression `e`, if
`combineSub s1 s2` succeeds with result `s`, then `applySub s e` equals
`applySub s2 (applySub s1 e)`. -/
theorem C1_combineSub_composition (s1 s2 s : Sub) (e : TExp)
    (h1 : SubInvariants s1) (h2 : SubInvariants s2) (hwf : wellFormed e = true)
    (h : combineSub s1 s2 = .ok s) :
    applySub s e = applySub s2 (applySub s1 e) := by
  rw [combineSub] at h
  by_cases he1 : isEmptySub s1 = true
  · rw [if_pos he1] at h
    cases h
    rw [applySub_empty s1 he1]
  · rw [if_neg he1] at h
    by_cases he2 : isEmptySub s2 = true
    · rw [if_pos he2] at h
      cases h
      rw [applySub_empty s2 he2]
    · rw [if_neg he2] at h
      rcases combine_ok_apply s2.vars s2.tes s1 s h2.2.1 h1.2.1 h with ⟨_, happ⟩
      rw [happ e, chainApply_eq_applySub s2.vars s2.tes h2.2.1 h2.2.2]

/-- Witness for C1 at the spec's example:
`combine({T1↦number}, {T2↦boolean})` applied to `(T1 * T2 -> T1)`. -/
theorem C1_combineSub_composition_witness :
    applySub ⟨[⟨"T2"⟩, ⟨"T1"⟩], [.atomic "boolean", .atomic "number"]⟩
        (.proc [.tvar "T1", .tvar "T2"] (.tvar "T1"))
      = applySub ⟨[⟨"T2"⟩], [.atomic "boolean"]⟩
          (applySub ⟨[⟨"T1"⟩], [.atomic "number"]⟩
            (.proc [.tvar "T1", .tvar "T2"] (.tvar "T1"))) :=
  C1_combineSub_composition
    ⟨[⟨"T1"⟩], [.atomic "number"]⟩ ⟨[⟨"T2"⟩], [.atomic "boolean"]⟩
    ⟨[⟨"T2"⟩, ⟨"T1"⟩], [.atomic "boolean", .atomic "number"]⟩
    (.proc [.tvar "T1", .tvar "T2"] (.tvar "T1"))
    (by decide) (by decide) (by decide) rfl

/-- **C2** counterexample: for `s = {T1 ↦ T2}` (which satisfies all the
Substitution invariants) and the raw pair `(T2, T1)`, the variable `T2` does
not occur in `T1`, yet `extendSub s T2 T1` fails with a circular-binding
error: rewriting the old binding's right-hand side `T2` with `{T2 ↦ T1}`
yields the self-referential pair `(T1, T1)`, which the re-validation step
rejects.  So "fails with CircularBinding iff `v` occurs free in `e`" is false
in the only-if direction. -/
theorem C2_occurs_check_iff_counterexample :
    SubInvariants ⟨[⟨"T1"⟩], [.tvar "T2"]⟩ ∧
      wellFormedSub ⟨[⟨"T1"⟩], [.tvar "T2"]⟩ ∧
      wellFormed (.tvar "T1") = true ∧
      occursIn "T2" (.tvar "T1") = false ∧
      extendSub ⟨[⟨"T1"⟩], [.tvar "T2"]⟩ ⟨"T2"⟩ (.tvar "T1")
        = .error (.circular "T1" (.tvar "T1")) :=
  ⟨by decide, by decide, rfl, rfl, rfl⟩

/-- **C2** (corrected): `extendSub s v e` fails with a circular-binding error
iff `v` occurs free in `e` (the check on the raw pair, performed first), or
some existing binding's right-hand side, rewritten by the singleton
`{v ↦ e}`, contains that binding's own variable (caught by the re-validation
of the rebuilt pair sequences). -/
theorem C2_extendSub_circular_iff_amended (s : Sub) (v : TVar) (e : TExp)
    (hinv : SubInvariants s) (hwfs : wellFormedSub s) (hwf : wellFormed e = true) :
    (∃ w t, extendSub s v e = .error (.circular w t)) ↔
      (occursIn v.var e = true ∨
        ∃ p ∈ s.vars.zip s.tes, occursIn p.1.var (applySub ⟨[v], [e]⟩ p.2) = true) := by
  rcases hinv with ⟨_, hB, _⟩
  by_cases hocc : occursIn v.var e = true
  · have hms : makeSub [v] [e] = .error (.circular v.var e) := by
      rw [makeSub, checkNoOccurrences, checkNoOccurrence_eq v e hwf, if_pos hocc]
      rfl
    rw [extendSub, hms]
    constructor
    · intro _
      exact Or.inl hocc
    · intro _
      exact ⟨v.var, e, rfl⟩
  · have hocc' : occursIn v.var e = false := by simpa using hocc
    have hms : makeSub [v] [e] = .ok ⟨[v], [e]⟩ := by
      rw [makeSub, checkNoOccurrences, checkNoOccurrence_eq v e hwf, if_neg hocc]
      rfl
    rw [extendSub, hms]
    show (∃ w t,
        (if (s.vars.map TVar.var).contains v.var = true
          then makeSub s.vars (s.tes.map (applySub ⟨[v], [e]⟩))
          else makeSub (v :: s.vars) (e :: s.tes.map (applySub ⟨[v], [e]⟩)))
          = .error (.circular w t)) ↔ _
    have hlen2 : s.vars.length = (s.tes.map (applySub ⟨[v], [e]⟩)).length := by
      rw [List.length_map]
      exact hB
    have hwfe : ∀ t' ∈ (⟨[v], [e]⟩ : Sub).tes, wellFormed t' = true := by
      intro t' ht'
      rcases List.mem_singleton.mp ht' with rfl
      exact hwf
    have hwf2 : ∀ p ∈ s.vars.zip (s.tes.map (applySub ⟨[v], [e]⟩)),
        wellFormed p.2 = true := by
      intro p hp
      rw [List.zip_map_right] at hp
      rcases List.mem_map.mp hp with ⟨⟨q1, q2⟩, hq, rfl⟩
      exact wellFormed_applySub ⟨[v], [e]⟩ hwfe q2 (hwfs q2 (List.of_mem_zip hq).2)
    have htrans : (∃ p ∈ s.vars.zip (s.tes.map (applySub ⟨[v], [e]⟩)),
          occursIn p.1.var p.2 = true) ↔
        (∃ p ∈ s.vars.zip s.tes, occursIn p.1.var (applySub ⟨[v], [e]⟩ p.2) = true) := by
      rw [List.zip_map_right]
      constructor
      · rintro ⟨p, hp, hc⟩
        rcases List.mem_map.mp hp with ⟨⟨q1, q2⟩, hq, rfl⟩
        exact ⟨(q1, q2), hq, hc⟩
      · rintro ⟨⟨q1, q2⟩, hq, hc⟩
        exact ⟨(q1, applySub ⟨[v], [e]⟩ q2),
          List.mem_map.mpr ⟨(q1, q2), hq, rfl⟩, hc⟩
    by_cases hmem : (s.vars.map TVar.var).contains v.var = true
    · rw [if_pos hmem, makeSub_circular_iff _ _ hlen2 hwf2, htrans]
      constructor
      · exact Or.inr
      · rintro (hc | hc)
        · exact absurd hc (by simp [hocc'])
        · exact hc
    · rw [if_neg hmem]
      have hlen3 : (v :: s.vars).length
          = (e :: s.tes.map (applySub ⟨[v], [e]⟩)).length := by
        simp [hB]
      have hwf3 : ∀ p ∈ (v :: s.vars).zip (e :: s.tes.map (applySub ⟨[v], [e]⟩)),
          wellFormed p.2 = true := by
        intro p hp
        rw [List.zip_cons_cons] at hp
        rcases List.mem_cons.mp hp with rfl | hp'
        · exact hwf
        · exact hwf2 p hp'
      rw [makeSub_circular_iff _ _ hlen3 hwf3]
      constructor
      · rintro ⟨p, hp, hc⟩
        rw [List.zip_cons_cons] at hp
        rcases List.mem_cons.mp hp with rfl | hp'
        · exact absurd hc (by simp [hocc'])
        · exact Or.inr (htrans.mp ⟨p, hp', hc⟩)
      · rintro (hc | hc)
        · exact absurd hc (by simp [hocc'])
        · rcases htrans.mpr hc with ⟨p, hp', hc'⟩
          refine ⟨p, ?_, hc'⟩
          rw [List.zip_cons_cons]
          exact List.mem_cons_of_mem _ hp'

/-- Witness for the amended C2 at the counterexample's input: the iff holds
there with the right disjunct (a rewritten binding became self-referential). -/
theorem C2_extendSub_circular_iff_amended_witness :
    (∃ w t, extendSub ⟨[⟨"T1"⟩], [.tvar "T2"]⟩ ⟨"T2"⟩ (.tvar "T1")
        = .error (.circular w t)) ↔
      (occursIn "T2" (.tvar "T1") = true ∨
        ∃ p ∈ ([⟨"T1"⟩] : List TVar).zip ([.tvar "T2"] : List TExp),
          occursIn p.1.var
            (applySub ⟨[⟨"T2"⟩], [.tvar "T1"]⟩ p.2) = true) :=
  C2_extendSub_circular_iff_amended ⟨[⟨"T1"⟩], [.tvar "T2"]⟩ ⟨"T2"⟩ (.tvar "T1")
    (by decide) (by decide) rfl

/-- **C3** counterexample: `s0 = {T1 ↦ number}` satisfies all the
Substitution invariants and `extendSub s0 T2 T1` succeeds, yielding
`{T2 ↦ T1, T1 ↦ number}` — but applying the result twice to `T2` gives
`number` while applying it once gives `T1`: re-application is not idempotent,
because the new right-hand side `e = T1` mentions a variable already bound in
`s0` and `extendSub` never rewrites `e` with `s0`'s bindings. -/
theorem C3_idempotent_counterexample :
    SubInvariants ⟨[⟨"T1"⟩], [.atomic "number"]⟩ ∧
      wellFormed (.tvar "T1") = true ∧
      extendSub ⟨[⟨"T1"⟩], [.atomic "number"]⟩ ⟨"T2"⟩ (.tvar "T1")
        = .ok ⟨[⟨"T2"⟩, ⟨"T1"⟩], [.tvar "T1", .atomic "number"]⟩ ∧
      applySub ⟨[⟨"T2"⟩, ⟨"T1"⟩], [.tvar "T1", .atomic "number"]⟩
          (applySub ⟨[⟨"T2"⟩, ⟨"T1"⟩], [.tvar "T1", .atomic "number"]⟩ (.tvar "T2"))
        ≠ applySub ⟨[⟨"T2"⟩, ⟨"T1"⟩], [.tvar "T1", .atomic "number"]⟩ (.tvar "T2") :=
  ⟨by decide, rfl, rfl,
    fun hc => TExp.noConfusion (show TExp.atomic "number" = TExp.tvar "T1" from hc)⟩

/-- **C3** (corrected): idempotent re-application after a successful
`extendSub s0 v e` holds under the additional hypothesis — which the
counterexample shows is necessary — that no variable bound in `s0` occurs
free in `e`. -/
theorem C3_extendSub_idempotent_amended (s0 : Sub) (v : TVar) (e : TExp) (s : Sub)
    (hinv : SubInvariants s0) (hwf : wellFormed e = true)
    (hfresh : ∀ u ∈ s0.vars, occursIn u.var e = false)
    (h : extendSub s0 v e = .ok s) :
    ∀ x, applySub s (applySub s x) = applySub s x := by
  apply applySub_idem_of_noOccurs
  rcases extendSub_ok_shape s0 v e s h with ⟨hcno, hcase⟩
  have hocc : occursIn v.var e = false := by
    rw [checkNoOccurrences, checkNoOccurrence_eq v e hwf] at hcno
    by_cases ho : occursIn v.var e = true
    · rw [if_pos ho] at hcno
      cases hcno
    · simpa using ho
  rcases hcase with ⟨hmem, rfl⟩ | ⟨hnot, rfl⟩
  · intro u hu t ht
    rcases List.mem_map.mp ht with ⟨t0, ht0, rfl⟩
    by_contra hc
    have hc' : occursIn u.var (applySub ⟨[v], [e]⟩ t0) = true := by simpa using hc
    rcases occursIn_applySub ⟨[v], [e]⟩ t0 u.var hc' with h1 | ⟨t', ht', h2⟩
    · exact absurd h1 (by simp [hinv.2.2 u hu t0 ht0])
    · rcases List.mem_singleton.mp ht' with rfl
      exact absurd h2 (by simp [hfresh u hu])
  · intro u hu t ht
    rcases List.mem_cons.mp hu with rfl | hu0
    · rcases List.mem_cons.mp ht with rfl | ht0
      · exact hocc
      · rcases List.mem_map.mp ht0 with ⟨t0, _, rfl⟩
        exact occursIn_applySub_singleton_self u e hocc t0
    · rcases List.mem_cons.mp ht with rfl | ht0
      · exact hfresh u hu0
      · rcases List.mem_map.mp ht0 with ⟨t0, ht0', rfl⟩
        by_contra hc
        have hc' : occursIn u.var (applySub ⟨[v], [e]⟩ t0) = true := by simpa using hc
        rcases occursIn_applySub ⟨[v], [e]⟩ t0 u.var hc' with h1 | ⟨t', ht', h2⟩
        · exact absurd h1 (by simp [hinv.2.2 u hu0 t0 ht0'])
        · rcases List.mem_singleton.mp ht' with rfl
          exact absurd h2 (by simp [hfresh u hu0])

/-- Witness for the amended C3: extending `{T1 ↦ number}` with
`T2 ↦ boolean` (whose right-hand side mentions no bound variable) yields a
substitution that re-applies idempotently, here at `x = T2`. -/
theorem C3_extendSub_idempotent_amended_witness :
    applySub ⟨[⟨"T2"⟩, ⟨"T1"⟩], [.atomic "boolean", .atomic "number"]⟩
        (applySub ⟨[⟨"T2"⟩, ⟨"T1"⟩], [.atomic "boolean", .atomic "number"]⟩ (.tvar "T2"))
      = applySub ⟨[⟨"T2"⟩, ⟨"T1"⟩], [.atomic "boolean", .atomic "number"]⟩ (.tvar "T2") :=
  C3_extendSub_idempotent_amended ⟨[⟨"T1"⟩], [.atomic "number"]⟩ ⟨"T2"⟩
    (.atomic "boolean") ⟨[⟨"T2"⟩, ⟨"T1"⟩], [.atomic "boolean", .atomic "number"]⟩
    (by decide) rfl (by decide) rfl (.tvar "T2")

/-- **C4** (confirmed): a successful `extendSub sub v te` rewrites every
pre-existing right-hand side with the singleton `{v ↦ te}`; if `v`'s name is
already bound the result keeps `sub`'s variable list unchanged (so `v` keeps
its position) paired with the rewritten expressions, otherwise `(v, te)` is
prepended to the front of both sequences. -/
theorem C4_extendSub_result_shape (sub : Sub) (v : TVar) (te : TExp) (s' : Sub)
    (h : extendSub sub v te = .ok s') :
    (v.var ∈ sub.vars.map TVar.var →
        s' = ⟨sub.vars, sub.tes.map (applySub ⟨[v], [te]⟩)⟩) ∧
      (v.var ∉ sub.vars.map TVar.var →
        s' = ⟨v :: sub.vars, te :: sub.tes.map (applySub ⟨[v], [te]⟩)⟩) := by
  rcases extendSub_ok_shape sub v te s' h with ⟨_, hcase⟩
  rcases hcase with ⟨hmem, rfl⟩ | ⟨hnot, rfl⟩
  · exact ⟨fun _ => rfl, fun hn => absurd (by simpa using hmem) hn⟩
  · exact ⟨fun hm => absurd hm (by simpa using hnot), fun _ => rfl⟩

/-- Witness for C4: extending `{T1 ↦ (T2 -> number)}` with `T2 ↦ boolean`
prepends the new pair and rewrites the old right-hand side. -/
theorem C4_extendSub_result_shape_witness :
    ("T2" ∈ ([⟨"T1"⟩] : List TVar).map TVar.var →
        (⟨[⟨"T2"⟩, ⟨"T1"⟩],
            [.atomic "boolean", .proc [.atomic "boolean"] (.atomic "number")]⟩ : Sub)
          = ⟨[⟨"T1"⟩],
              ([.proc [.tvar "T2"] (.atomic "number")] : List TExp).map
                (applySub ⟨[⟨"T2"⟩], [.atomic "boolean"]⟩)⟩) ∧
      ("T2" ∉ ([⟨"T1"⟩] : List TVar).map TVar.var →
        (⟨[⟨"T2"⟩, ⟨"T1"⟩],
            [.atomic "boolean", .proc [.atomic "boolean"] (.atomic "number")]⟩ : Sub)
          = ⟨⟨"T2"⟩ :: [⟨"T1"⟩],
              .atomic "boolean" ::
                ([.proc [.tvar "T2"] (.atomic "number")] : List TExp).map
                  (applySub ⟨[⟨"T2"⟩], [.atomic "boolean"]⟩)⟩) :=
  C4_extendSub_result_shape ⟨[⟨"T1"⟩], [.proc [.tvar "T2"] (.atomic "number")]⟩
    ⟨"T2"⟩ (.atomic "boolean")
    ⟨[⟨"T2"⟩, ⟨"T1"⟩], [.atomic "boolean", .proc [.atomic "boolean"] (.atomic "number")]⟩
    rfl

/-- **C5** (confirmed): `subGet` is total by construction (it always returns a
type expression, with no failure path); under the arity invariant it scans
`sub.vars`/`sub.tes` in order, returns the expression paired with the first
variable whose name equals `v`'s name, and returns `v` itself unchanged when
no variable in `sub.vars` carries `v`'s name. -/
theorem C5_subGet_total (sub : Sub) (v : TVar)
    (hB : sub.vars.length = sub.tes.length) :
    ((∀ u ∈ sub.vars, u.var ≠ v.var) → subGet sub v = .tvar v.var) ∧
      (∀ va : List TVar, ∀ u : TVar, ∀ vb : List TVar,
        ∀ ta : List TExp, ∀ t : TExp, ∀ tb : List TExp,
        sub.vars = va ++ u :: vb → sub.tes = ta ++ t :: tb →
        va.length = ta.length → (∀ w ∈ va, w.var ≠ v.var) → u.var = v.var →
        subGet sub v = t) := by
  constructor
  · exact subGet_not_mem sub v
  · intro va u vb ta t tb hv ht hlen hne hu
    rw [subGet, hv, ht]
    exact lookup_first_match v u t vb tb va ta hlen hne hu

/-- Witness for C5 on `{T1 ↦ number, T2 ↦ boolean}`: `T2` resolves to its
paired expression past the non-matching first entry, `T3` to itself. -/
theorem C5_subGet_total_witness :
    subGet ⟨[⟨"T1"⟩, ⟨"T2"⟩], [.atomic "number", .atomic "boolean"]⟩ ⟨"T2"⟩
      = .atomic "boolean" :=
  (C5_subGet_total ⟨[⟨"T1"⟩, ⟨"T2"⟩], [.atomic "number", .atomic "boolean"]⟩
      ⟨"T2"⟩ rfl).2
    [⟨"T1"⟩] ⟨"T2"⟩ [] [.atomic "number"] (.atomic "boolean") []
    rfl rfl rfl (by decide) rfl

/-- **C6** (confirmed): `applySub` is the homomorphic extension over the
expression tree — identity on the empty substitution, identity on atomic
types, `subGet` on variables, and structural recursion through procedure
parameter lists and return types. -/
theorem C6_applySub_homomorphism (sub : Sub) (hne : isEmptySub sub = false) :
    (∀ e, applySub makeEmptySub e = e) ∧
      (∀ a, applySub sub (.atomic a) = .atomic a) ∧
      (∀ w, applySub sub (.tvar w) = subGet sub ⟨w⟩) ∧
      (∀ ps r, applySub sub (.proc ps r)
        = .proc (ps.map (applySub sub)) (applySub sub r)) :=
  ⟨fun e => applySub_empty makeEmptySub rfl e,
    fun a => applySub_atomic sub a,
    fun w => applySub_tvar sub hne w,
    fun ps r => applySub_proc sub hne ps r⟩

/-- Witness for C6 at `sub = {T1 ↦ number}`. -/
theorem C6_applySub_homomorphism_witness :
    (∀ e, applySub makeEmptySub e = e) ∧
      (∀ a, applySub ⟨[⟨"T1"⟩], [.atomic "number"]⟩ (.atomic a) = .atomic a) ∧
      (∀ w, applySub ⟨[⟨"T1"⟩], [.atomic "number"]⟩ (.tvar w)
        = subGet ⟨[⟨"T1"⟩], [.atomic "number"]⟩ ⟨w⟩) ∧
      (∀ ps r, applySub ⟨[⟨"T1"⟩], [.atomic "number"]⟩ (.proc ps r)
        = .proc (ps.map (applySub ⟨[⟨"T1"⟩], [.atomic "number"]⟩))
            (applySub ⟨[⟨"T1"⟩], [.atomic "number"]⟩ r)) :=
  C6_applySub_homomorphism ⟨[⟨"T1"⟩], [.atomic "number"]⟩ rfl

/-- **C7** (confirmed): under the preconditions (equal lengths, no duplicate
names), `makeSub` occurs-checks pairwise position by position: if every pair
passes it returns the two sequences verbatim; the first failing position
aborts with that pair's circular error; and `makeSub [] []` and
`makeEmptySub` yield the always-valid identity substitution. -/
theorem C7_makeSub_spec (vars : List TVar) (tes : List TExp)
    (hB : vars.length = tes.length) (hA : (vars.map TVar.var).Nodup)
    (hwf : ∀ p ∈ vars.zip tes, wellFormed p.2 = true) :
    ((∀ p ∈ vars.zip tes, occursIn p.1.var p.2 = false) →
        makeSub vars tes = .ok ⟨vars, tes⟩) ∧
      (∀ va : List TVar, ∀ u : TVar, ∀ vb : List TVar,
        ∀ ta : List TExp, ∀ t : TExp, ∀ tb : List TExp,
        vars = va ++ u :: vb → tes = ta ++ t :: tb → va.length = ta.length →
        (∀ p ∈ va.zip ta, occursIn p.1.var p.2 = false) →
        occursIn u.var t = true →
        makeSub vars tes = .error (.circular u.var t)) ∧
      makeSub [] [] = .ok makeEmptySub ∧
      isEmptySub makeEmptySub = true := by
  refine ⟨?_, ?_, rfl, rfl⟩
  · intro hno
    exact makeSub_eq_ok vars tes ((checkNoOccurrences_ok_iff vars tes hB hwf).mpr hno)
  · intro va u vb ta t tb hv ht hlen hpass hocc
    subst hv
    subst ht
    have hzip : (va ++ u :: vb).zip (ta ++ t :: tb)
        = va.zip ta ++ (u, t) :: vb.zip tb := by
      rw [List.zip_append hlen, List.zip_cons_cons]
    have hwt : wellFormed t = true := by
      apply hwf (u, t)
      rw [hzip]
      exact List.mem_append.mpr (Or.inr (List.mem_cons_self _ _))
    have hwfa : ∀ p ∈ va.zip ta, wellFormed p.2 = true := by
      intro p hp
      apply hwf p
      rw [hzip]
      exact List.mem_append.mpr (Or.inl hp)
    exact (makeSub_error_iff _ _ _).mpr
      (checkNoOccurrences_first_fail u t vb tb hocc hwt va ta hlen hwfa hpass)

/-- Witness for C7 at the spec's example `makeSub([T1, T2], [number, bool])`
together with the circular example `makeSub([T1, T2], [number, (T2 -> T2)])`
failing at position 1. -/
theorem C7_makeSub_spec_witness :
    makeSub [⟨"T1"⟩, ⟨"T2"⟩] [.atomic "number", .atomic "boolean"]
        = .ok ⟨[⟨"T1"⟩, ⟨"T2"⟩], [.atomic "number", .atomic "boolean"]⟩ ∧
      makeSub [⟨"T1"⟩, ⟨"T2"⟩] [.atomic "number", .proc [.tvar "T2"] (.atomic "number")]
        = .error (.circular "T2" (.proc [.tvar "T2"] (.atomic "number"))) :=
  ⟨(C7_makeSub_spec [⟨"T1"⟩, ⟨"T2"⟩] [.atomic "number", .atomic "boolean"]
      rfl (by decide) (by decide)).1 (by decide),
    (C7_makeSub_spec [⟨"T1"⟩, ⟨"T2"⟩]
        [.atomic "number", .proc [.tvar "T2"] (.atomic "number")]
        rfl (by decide) (by decide)).2.1
      [⟨"T1"⟩] ⟨"T2"⟩ [] [.atomic "number"] (.proc [.tvar "T2"] (.atomic "number")) []
      rfl rfl rfl (by decide) (by decide)⟩

/-- **C8** (confirmed): `combineSub` satisfies the identity laws — an empty
`sub1` returns `sub2` unchanged and an empty `sub2` returns `sub1` unchanged,
always succeeding (when both are empty the two results coincide). -/
theorem C8_combineSub_identity (sub1 sub2 : Sub) :
    (isEmptySub sub1 = true → combineSub sub1 sub2 = .ok sub2) ∧
      (isEmptySub sub2 = true → combineSub sub1 sub2 = .ok sub1) := by
  constructor
  · intro h
    rw [combineSub, if_pos h]
  · intro h
    rw [combineSub]
    by_cases h1 : isEmptySub sub1 = true
    · rw [if_pos h1]
      rcases sub1 with ⟨v1, t1⟩
      rcases sub2 with ⟨v2, t2⟩
      rcases (isEmptySub_iff _).mp h1 with ⟨rfl, rfl⟩
      rcases (isEmptySub_iff _).mp h with ⟨rfl, rfl⟩
      rfl
    · rw [if_neg h1, if_pos h]

/-- Witness for C8 with `s = {T1 ↦ number}` on either side of the empty
substitution. -/
theorem C8_combineSub_identity_witness :
    combineSub makeEmptySub ⟨[⟨"T1"⟩], [.atomic "number"]⟩
        = .ok ⟨[⟨"T1"⟩], [.atomic "number"]⟩ ∧
      combineSub ⟨[⟨"T1"⟩], [.atomic "number"]⟩ makeEmptySub
        = .ok ⟨[⟨"T1"⟩], [.atomic "number"]⟩ :=
  ⟨(C8_combineSub_identity makeEmptySub ⟨[⟨"T1"⟩], [.atomic "number"]⟩).1 rfl,
    (C8_combineSub_identity ⟨[⟨"T1"⟩], [.atomic "number"]⟩ makeEmptySub).2 rfl⟩

/-- **C9** (confirmed): every recursive worker of the algebra terminates with
recursion depth bounded by its input — the expression-tree depth for the tree
traversals (`check`, the inner walker of `checkNoOccurrence`, and `applySub`)
and the list length for the scans (`subGet`'s `lookup`, `checkNoOccurrences`,
`combine`): the fuel-indexed variants converge to the total functions at
exactly those bounds.  `makeSub` and `extendSub` recurse only through these
workers and `isEmptySub`/`subGet` are non-recursive wrappers. -/
theorem C9_termination :
    (∀ sub : Sub, ∀ te : TExp, ∀ n : Nat, depth te ≤ n →
        applySubF n sub te = some (applySub sub te)) ∧
      (∀ tv : TVar, ∀ top te : TExp, ∀ n : Nat, depth te ≤ n →
        checkF n tv top te = some (check tv top te)) ∧
      (∀ v : TVar, ∀ vars : List TVar, ∀ tes : List TExp, ∀ n : Nat,
        vars.length ≤ n → lookupF v n vars tes = some (lookup v vars tes)) ∧
      (∀ vars : List TVar, ∀ tes : List TExp, ∀ n : Nat, vars.length ≤ n →
        checkNoOccurrencesF n vars tes = some (checkNoOccurrences vars tes)) ∧
      (∀ sub : Sub, ∀ vars : List TVar, ∀ tes : List TExp, ∀ n : Nat,
        vars.length ≤ n → combineF n sub vars tes = some (combine sub vars tes)) :=
  ⟨fun sub te n hd => (applySubF_spec n).1 te sub hd,
    fun tv top te n hd => (checkF_spec n).1 te tv top hd,
    fun v vars tes n hn => lookupF_spec v vars tes n hn,
    fun vars tes n hn => checkNoOccurrencesF_spec vars tes n hn,
    fun sub vars tes n hn => combineF_spec vars tes sub n hn⟩

/-- Witness for C9: the fueled workers converge at fuel equal to the tree
depth (2 here) or the list length (1 here) on concrete inputs. -/
theorem C9_termination_witness :
    applySubF 2 ⟨[⟨"T1"⟩], [.atomic "number"]⟩ (.proc [.tvar "T1"] (.tvar "T2"))
        = some (applySub ⟨[⟨"T1"⟩], [.atomic "number"]⟩
            (.proc [.tvar "T1"] (.tvar "T2"))) ∧
      checkF 2 ⟨"T1"⟩ (.proc [.tvar "T1"] (.atomic "number"))
          (.proc [.tvar "T1"] (.atomic "number"))
        = some (check ⟨"T1"⟩ (.proc [.tvar "T1"] (.atomic "number"))
            (.proc [.tvar "T1"] (.atomic "number"))) ∧
      lookupF ⟨"T1"⟩ 1 [⟨"T1"⟩] [.atomic "number"]
        = some (lookup ⟨"T1"⟩ [⟨"T1"⟩] [.atomic "number"]) ∧
      checkNoOccurrencesF 1 [⟨"T1"⟩] [.atomic "number"]
        = some (checkNoOccurrences [⟨"T1"⟩] [.atomic "number"]) ∧
      combineF 1 makeEmptySub [⟨"T1"⟩] [.atomic "number"]
        = some (combine makeEmptySub [⟨"T1"⟩] [.atomic "number"]) :=
  ⟨C9_termination.1 ⟨[⟨"T1"⟩], [.atomic "number"]⟩ (.proc [.tvar "T1"] (.tvar "T2"))
      2 (by decide),
    C9_termination.2.1 ⟨"T1"⟩ (.proc [.tvar "T1"] (.atomic "number"))
      (.proc [.tvar "T1"] (.atomic "number")) 2 (by decide),
    C9_termination.2.2.1 ⟨"T1"⟩ [⟨"T1"⟩] [.atomic "number"] 1 (by decide),
    C9_termination.2.2.2.1 [⟨"T1"⟩] [.atomic "number"] 1 (by decide),
    C9_termination.2.2.2.2 makeEmptySub [⟨"T1"⟩] [.atomic "number"] 1 (by decide)⟩

/-- **C10** (confirmed): on a value that is none of the three recognized
variants, a non-empty substitution's `applySub` returns it unchanged through
the final fallthrough branch, while `checkNoOccurrence` fails on the same
value with the bad-type-expression error. -/
theorem C10_malformed_fallthrough (sub : Sub) (hne : isEmptySub sub = false)
    (d : String) (v : TVar) :
    applySub sub (.bad d) = .bad d ∧
      checkNoOccurrence v (.bad d) = .error (.badTypeExp (.bad d) (.bad d)) :=
  ⟨applySub_bad sub d, rfl⟩

/-- Witness for C10 at `sub = {T1 ↦ number}`, `d = "undefined"`, `v = T2`. -/
theorem C10_malformed_fallthrough_witness :
    applySub ⟨[⟨"T1"⟩], [.atomic "number"]⟩ (.bad "undefined") = .bad "undefined" ∧
      checkNoOccurrence ⟨"T2"⟩ (.bad "undefined")
        = .error (.badTypeExp (.bad "undefined") (.bad "undefined")) :=
  C10_malformed_fallthrough ⟨[⟨"T1"⟩], [.atomic "number"]⟩ rfl "undefined" ⟨"T2"⟩

end L5
